import Mathlib

/-!
Verification of the chunking engine of `repo-indexer/chunker/chunker.py`.

The Python code is shallowly embedded: every definition below mirrors one
Python function of the source.  Python strings are modelled as Lean `String`
(a list of unicode characters, matching Python's sequence-of-code-points
view); Python's `str.split('\x5cn')`, `str.join`, `str.strip()` and
`str.title()` are embedded as structurally recursive functions on the
character list so that all definitions compute.
-/

namespace RepoIndexer

/-- Membership test for the characters stripped by Python's `str.strip()`
(ASCII whitespace; the unicode extras are irrelevant to this code base). -/
def pyIsSpace (c : Char) : Bool :=
  c = ' ' || c = '\t' || c = '\n' || c = '\r' || c = '\x0b' || c = '\x0c'

/-- Characters of Python's `content.split('\x5cn')`: split a character list at
every newline.  Always returns at least one (possibly empty) group, exactly
like Python's `str.split` with an explicit separator. -/
def splitNlChars : List Char → List (List Char)
  | [] => [[]]
  | c :: cs =>
    let r := splitNlChars cs
    if c = '\n' then [] :: r
    else
      match r with
      | [] => [[c]]
      | h :: t => (c :: h) :: t

/-- Embedding of Python `content.split('\x5cn')`. -/
def pySplitLines (s : String) : List String :=
  (splitNlChars s.data).map fun l => ⟨l⟩

/-- Embedding of Python `'\x5cn'.join(lines)`. -/
def joinLines : List String → String
  | [] => ""
  | [l] => l
  | l :: ls => l ++ "\n" ++ joinLines ls

/-- Embedding of Python `s.strip()`. -/
def pyStrip (s : String) : String :=
  ⟨((s.data.dropWhile pyIsSpace).reverse.dropWhile pyIsSpace).reverse⟩

/-- Helper for `pyTitle`: the boolean records whether the previous character
was alphabetic (Python title-cases the first letter of every alpha run). -/
def pyTitleGo : Bool → List Char → List Char
  | _, [] => []
  | prevAlpha, c :: cs =>
    (if prevAlpha then c.toLower else c.toUpper) :: pyTitleGo c.isAlpha cs

/-- Embedding of Python `s.title()`. -/
def pyTitle (s : String) : String :=
  ⟨pyTitleGo false s.data⟩

/-- Embedding of `TokenEstimator.estimate_tokens` in its fallback mode
(`tiktoken` unavailable): Python `len(text) // 4`. -/
def estimate_tokens (text : String) : Nat :=
  text.length / 4

/-- Token estimate as the specification words it: `ceil(length / 4)`.
This second definition follows the spec's words, for comparison with the
source-derived `estimate_tokens`. -/
def estimate_tokens_ceil_spec (text : String) : Nat :=
  (text.length + 3) / 4

/-- Embedding of the chunk dictionaries produced by `TreeSitterChunker`
(keys `type`, `name`, `start_line`, `end_line`, `text`, `capture_name`,
`parser_fallback`; the last key is absent for parsed nodes, modelled as
`false`). -/
structure Chunk where
  type : String
  name : String
  start_line : Nat
  end_line : Nat
  text : String
  capture_name : String
  parser_fallback : Bool
deriving DecidableEq, Repr

/-- The chunk dictionary built in `_fallback_chunking` (both emission sites
build exactly this shape). -/
def mkBlock (idx s e : Nat) (txt : String) : Chunk :=
  ⟨"block", "block_" ++ toString idx, s, e, txt, "fallback", true⟩

/-- Loop of `TreeSitterChunker._fallback_chunking`: `rest` are the lines not
yet visited, `i` the 1-based index of the next line (Python's
`enumerate(lines, 1)`), `acc` the chunks emitted so far, `cur` the current
accumulator `current_chunk` and `curTok` is `current_tokens`. -/
def fallbackGo (est : String → Nat) (maxT nLines : Nat) :
    List String → Nat → List Chunk → List String → Nat → List Chunk
  | [], _, acc, cur, _ =>
    if cur = [] then acc
    else acc ++ [mkBlock (acc.length + 1) (nLines - cur.length + 1) nLines (joinLines cur)]
  | line :: rest, i, acc, cur, curTok =>
    let lt := est line
    if curTok + lt > maxT ∧ cur ≠ [] then
      fallbackGo est maxT nLines rest (i + 1)
        (acc ++ [mkBlock (acc.length + 1) (i - cur.length) (i - 1) (joinLines cur)])
        [line] lt
    else
      fallbackGo est maxT nLines rest (i + 1) acc (cur ++ [line]) (curTok + lt)

/-- Embedding of `TreeSitterChunker._fallback_chunking` (the estimator is
passed explicitly: it is `self.token_estimator.estimate_tokens`). -/
def fallback_chunking (est : String → Nat) (maxT : Nat) (content : String) : List Chunk :=
  let lines := pySplitLines content
  fallbackGo est maxT lines.length lines 1 [] [] 0

/-- The merged chunk dictionary built in `_merge_small_chunks`. -/
def mergedOf (a b : Chunk) : Chunk :=
  ⟨"merged", a.name ++ "_merged_" ++ b.name, a.start_line, b.end_line,
    a.text ++ "\n" ++ b.text, "merged", a.parser_fallback || b.parser_fallback⟩

/-- Embedding of `TreeSitterChunker._merge_small_chunks`: single
left-to-right pass; an undersized chunk (below `minT`) that is not last is
folded into its successor when the combined estimate stays within `maxT`,
consuming both. -/
def merge_small_chunks (est : String → Nat) (minT maxT : Nat) : List Chunk → List Chunk
  | [] => []
  | [c] => [c]
  | a :: b :: rest =>
    if est a.text < minT ∧ est a.text + est b.text ≤ maxT then
      mergedOf a b :: merge_small_chunks est minT maxT rest
    else
      a :: merge_small_chunks est minT maxT (b :: rest)

/-- Python slice `lines[a:b]` for 0-based indices. -/
def sliceIdx (lines : List String) (a b : Nat) : List String :=
  (lines.drop a).take (b - a)

/-- The `i > 0` branch of `TreeSitterChunker._add_overlap`: prepend the
slice `lines[max(0, prev_end - k) : prev_end]` to the chunk text and move
`start_line` to the slice start; `none` marks the first chunk (`i = 0`),
which is left untouched. -/
def applyPrevOverlap (k : Nat) (lines : List String) : Option Nat → Chunk → Chunk
  | none, c => c
  | some prevEnd, c =>
    let overlapStart := prevEnd - k
    { c with
        text := joinLines (sliceIdx lines overlapStart prevEnd) ++ "\n" ++ c.text,
        start_line := overlapStart + 1 }

/-- Loop of `TreeSitterChunker._add_overlap`.  The Python loop mutates the
chunk dictionaries in place, so when chunk `i` reads
`chunks[i - 1]['end_line']` it sees the value written during iteration
`i - 1`; the `prevEnd?` argument carries exactly that mutated value
(`none` for the first chunk).  The next chunk's `start_line` is read before
iteration `i + 1` touches it, hence it comes from the untouched tail. -/
def addOverlapGo (k nL : Nat) (lines : List String) :
    Option Nat → List Chunk → List Chunk
  | _, [] => []
  | prevEnd?, [c] => [applyPrevOverlap k lines prevEnd? c]
  | prevEnd?, c :: d :: rest =>
    let c1 := applyPrevOverlap k lines prevEnd? c
    let nextStart := d.start_line - 1
    let overlapEnd := min nL (nextStart + k)
    let c2 := { c1 with
        text := c1.text ++ "\n" ++ joinLines (sliceIdx lines nextStart overlapEnd),
        end_line := overlapEnd }
    c2 :: addOverlapGo k nL lines (some overlapEnd) (d :: rest)

/-- Embedding of `TreeSitterChunker._add_overlap` (`overlapT` is
`self.overlap_tokens`; the Python code uses `overlap_tokens // 4` as a rough
line count). -/
def add_overlap (overlapT : Nat) (chunks : List Chunk) (content : String) : List Chunk :=
  if chunks.length ≤ 1 then chunks
  else
    let lines := pySplitLines content
    addOverlapGo (overlapT / 4) lines.length lines none chunks

/-- Embedding of `TreeSitterChunker.chunk_file`.  `parsedNodes` is the list
produced by the tree-sitter branch (`_extract_nodes_with_query` when a tree
was obtained, `[]` otherwise); when it is empty the code falls back to
line-based chunking, then merges small chunks and adds overlap. -/
def chunk_file (est : String → Nat) (minT maxT overlapT : Nat)
    (parsedNodes : List Chunk) (content : String) : List Chunk :=
  let nodes := if parsedNodes.isEmpty then fallback_chunking est maxT content else parsedNodes
  let nodes := merge_small_chunks est minT maxT nodes
  add_overlap overlapT nodes content

/-- Embedding of `TreeSitterChunker.create_chunk_id`.  `sha1_hexdigest`
stands for Python's `hashlib.sha1(s.encode()).hexdigest()`, an external
library digest applied to the built string. -/
def create_chunk_id (sha1_hexdigest : String → String)
    (filepath : String) (start_line end_line : Nat) (text : String) : String :=
  "sha1:" ++ sha1_hexdigest
    (filepath ++ ":" ++ toString start_line ++ ":" ++ toString end_line ++ ":" ++ text)

/-- Embedding of `TreeSitterChunker.create_code_fingerprint`: a separate
code path building the same digest input. -/
def create_code_fingerprint (sha1_hexdigest : String → String)
    (filepath : String) (start_line end_line : Nat) (text : String) : String :=
  sha1_hexdigest
    (filepath ++ ":" ++ toString start_line ++ ":" ++ toString end_line ++ ":" ++ text)

/-- Embedding of `TreeSitterChunker.generate_summary`. -/
def generate_summary (text : String) (node_type : String) : String :=
  let lines := pySplitLines (pyStrip text)
  let first_line := pyStrip (lines.headD "")
  if node_type = "function" ∨ node_type = "method" then
    "Function: " ++ first_line.take 100 ++ "..."
  else if node_type = "class" then
    "Class: " ++ first_line.take 100 ++ "..."
  else if node_type = "import" ∨ node_type = "import_statement" then
    "Import: " ++ first_line
  else
    pyTitle node_type ++ ": " ++ first_line.take 100 ++ "..."

/-- The counters of `RepoChunker.stats` touched by `process_file`. -/
structure Stats where
  total_files : Nat
  parsed_files : Nat
  failed_files : Nat
deriving DecidableEq, Repr

/-- Embedding of `RepoChunker.process_file` on the successful-read path:
`total_files` is bumped, the file is chunked, and either the chunks are
written (`parsed_files` bumped) or, when the chunk list is empty, nothing is
written and `failed_files` is bumped — no exception either way.  The
returned list is what `_write_chunks` receives (empty in the failed case). -/
def process_file (est : String → Nat) (minT maxT overlapT : Nat)
    (stats : Stats) (parsedNodes : List Chunk) (content : String) :
    Stats × List Chunk :=
  let stats1 : Stats := { stats with total_files := stats.total_files + 1 }
  let chunks := chunk_file est minT maxT overlapT parsedNodes content
  if chunks.isEmpty then
    ({ stats1 with failed_files := stats1.failed_files + 1 }, [])
  else
    ({ stats1 with parsed_files := stats1.parsed_files + 1 }, chunks)

/-- The newline-join of the (1-based, inclusive) line range `[s, e]` of
`lines`. -/
def sliceText (lines : List String) (s e : Nat) : String :=
  joinLines ((lines.drop (s - 1)).take (e - s + 1))

/-- Coverage chain: starting at expected line `s`, every chunk must start at
the expected line, have `start_line ≤ end_line ≤ lines.length`, and carry
exactly the newline-join of its line range; the result is the next expected
line, `none` on any violation. -/
def chainFrom (lines : List String) : Nat → List Chunk → Option Nat
  | s, [] => some s
  | s, c :: cs =>
    if c.start_line = s ∧ s ≤ c.end_line ∧ c.end_line ≤ lines.length ∧
        c.text = sliceText lines s c.end_line then
      chainFrom lines (c.end_line + 1) cs
    else none

/-- A chunk list covers `lines` with no gap and no line missing: the chain
starts at line 1 and ends just past the last line. -/
def coversAllLines (lines : List String) (cs : List Chunk) : Prop :=
  chainFrom lines 1 cs = some (lines.length + 1)

/-- Decidable check of claim C2 as stated: every chunk estimated below
`minT` is either the last chunk or merging it with its successor would
exceed `maxT`. -/
def belowMinOk (est : String → Nat) (minT maxT : Nat) : List Chunk → Bool
  | [] => true
  | [_] => true
  | c :: d :: rest =>
    (decide (minT ≤ est c.text) || decide (maxT < est c.text + est d.text)) &&
      belowMinOk est minT maxT (d :: rest)

/-- Decidable check of the amended claim C2: a chunk below `minT` is also
excused when it is itself the output of a merge (kind `"merged"`), since the
single left-to-right pass never re-evaluates a chunk it just produced. -/
def belowMinOkAmended (est : String → Nat) (minT maxT : Nat) : List Chunk → Bool
  | [] => true
  | [_] => true
  | c :: d :: rest =>
    (decide (minT ≤ est c.text) || decide (maxT < est c.text + est d.text) ||
        decide (c.type = "merged")) &&
      belowMinOkAmended est minT maxT (d :: rest)

/-- The newline-join of the text fields of a chunk list. -/
def joinTexts (cs : List Chunk) : String :=
  joinLines (cs.map Chunk.text)

theorem joinLines_cons (l : String) (L : List String) (h : L ≠ []) :
    joinLines (l :: L) = l ++ "\n" ++ joinLines L := by
  cases L with
  | nil => exact absurd rfl h
  | cons a t => rfl

theorem joinLines_append (A B : List String) (hA : A ≠ []) (hB : B ≠ []) :
    joinLines (A ++ B) = joinLines A ++ "\n" ++ joinLines B := by
  induction A with
  | nil => exact absurd rfl hA
  | cons a A ih =>
    cases A with
    | nil =>
      rw [List.singleton_append, joinLines_cons a B hB]
      rfl
    | cons a2 A2 =>
      have h2 : (a2 :: A2 : List String) ≠ [] := by simp
      have h3 : (a2 :: A2 : List String) ++ B ≠ [] := by simp
      rw [List.cons_append, joinLines_cons a _ h3, ih h2, joinLines_cons a _ h2]
      simp [String.append_assoc]

theorem sliceText_glue (lines : List String) (s m e : Nat)
    (h1 : 1 ≤ s) (h2 : s ≤ m) (h3 : m < e) (h4 : e ≤ lines.length) :
    sliceText lines s m ++ "\n" ++ sliceText lines (m + 1) e = sliceText lines s e := by
  unfold sliceText
  have hd : lines.drop m = (lines.drop (s - 1)).drop (m - s + 1) := by
    rw [List.drop_drop]
    congr 1
    omega
  have hm1 : m + 1 - 1 = m := by omega
  have he : e - (m + 1) + 1 = e - m := by omega
  have hsum : e - s + 1 = (m - s + 1) + (e - m) := by omega
  have hA : (lines.drop (s - 1)).take (m - s + 1) ≠ [] := by
    apply List.ne_nil_of_length_pos
    rw [List.length_take, List.length_drop]
    have : 0 < lines.length - (s - 1) := by omega
    omega
  have hB : ((lines.drop (s - 1)).drop (m - s + 1)).take (e - m) ≠ [] := by
    apply List.ne_nil_of_length_pos
    rw [List.length_take, List.length_drop, List.length_drop]
    have : 0 < e - m := by omega
    omega
  rw [hm1, he, hd]
  conv_rhs => rw [hsum, List.take_add]
  rw [joinLines_append _ _ hA hB]

theorem chainFrom_append (lines : List String) (xs : List Chunk) :
    ∀ (s t : Nat) (ys : List Chunk), chainFrom lines s xs = some t →
      chainFrom lines s (xs ++ ys) = chainFrom lines t ys := by
  induction xs with
  | nil =>
    intro s t ys h
    simp only [chainFrom, Option.some.injEq] at h
    subst h
    simp
  | cons c xs ih =>
    intro s t ys h
    have hstep : ∀ (zs : List Chunk), chainFrom lines s (c :: zs) =
        if c.start_line = s ∧ s ≤ c.end_line ∧ c.end_line ≤ lines.length ∧
            c.text = sliceText lines s c.end_line then
          chainFrom lines (c.end_line + 1) zs
        else none := fun _ => rfl
    rw [List.cons_append, hstep]
    rw [hstep] at h
    split at h
    case isTrue hc =>
      rw [if_pos hc]
      exact ih _ _ _ h
    case isFalse hc =>
      exact absurd h (by simp)

theorem chainFrom_bounds (lines : List String) (cs : List Chunk) :
    ∀ (s t : Nat), chainFrom lines s cs = some t →
      ∀ c ∈ cs, c.start_line ≤ c.end_line := by
  induction cs with
  | nil => intro s t _ c hc; exact absurd hc (by simp)
  | cons a l ih =>
    intro s t h c hc
    have hstep : chainFrom lines s (a :: l) =
        if a.start_line = s ∧ s ≤ a.end_line ∧ a.end_line ≤ lines.length ∧
            a.text = sliceText lines s a.end_line then
          chainFrom lines (a.end_line + 1) l
        else none := rfl
    rw [hstep] at h
    split at h
    case isTrue hcond =>
      rcases List.mem_cons.mp hc with hc | hc
      · subst hc
        omega
      · exact ih _ _ h c hc
    case isFalse hcond => exact absurd h (by simp)

theorem fallbackGo_chain (est : String → Nat) (maxT : Nat) (lines : List String) :
    ∀ (rest : List String) (p : Nat) (acc : List Chunk) (cur : List String)
      (curTok i : Nat),
      chainFrom lines 1 acc = some (p + 1) →
      cur = (lines.drop p).take cur.length →
      rest = lines.drop (p + cur.length) →
      p + cur.length ≤ lines.length →
      i = p + cur.length + 1 →
      chainFrom lines 1 (fallbackGo est maxT lines.length rest i acc cur curTok) =
        some (lines.length + 1) := by
  intro rest
  induction rest with
  | nil =>
    intro p acc cur curTok i hacc hcur hrest hle hi
    have hplen : lines.length ≤ p + cur.length := by
      rw [← List.drop_eq_nil_iff_le, ← hrest]
    have heq : p + cur.length = lines.length := by omega
    by_cases hcnil : cur = []
    · subst hcnil
      simp only [fallbackGo, if_pos rfl]
      simp only [List.length_nil, Nat.add_zero] at heq
      rw [heq] at hacc
      exact hacc
    · have hfall : fallbackGo est maxT lines.length [] i acc cur curTok =
          acc ++ [mkBlock (acc.length + 1) (lines.length - cur.length + 1)
            lines.length (joinLines cur)] := by
        simp only [fallbackGo, if_neg hcnil]
      rw [hfall, chainFrom_append lines acc _ _ _ hacc]
      have hclen : 1 ≤ cur.length := by
        cases cur with
        | nil => exact absurd rfl hcnil
        | cons a t => simp
      have hstart : lines.length - cur.length + 1 = p + 1 := by omega
      have hcond : (mkBlock (acc.length + 1) (lines.length - cur.length + 1)
            lines.length (joinLines cur)).start_line = p + 1 ∧
          p + 1 ≤ (mkBlock (acc.length + 1) (lines.length - cur.length + 1)
            lines.length (joinLines cur)).end_line ∧
          (mkBlock (acc.length + 1) (lines.length - cur.length + 1)
            lines.length (joinLines cur)).end_line ≤ lines.length ∧
          (mkBlock (acc.length + 1) (lines.length - cur.length + 1)
            lines.length (joinLines cur)).text =
            sliceText lines (p + 1) (mkBlock (acc.length + 1)
              (lines.length - cur.length + 1) lines.length (joinLines cur)).end_line := by
        refine ⟨hstart, by simp [mkBlock]; omega, by simp [mkBlock], ?_⟩
        show joinLines cur = sliceText lines (p + 1) lines.length
        unfold sliceText
        have h1 : p + 1 - 1 = p := by omega
        have h2 : lines.length - (p + 1) + 1 = cur.length := by omega
        rw [h1, h2, ← hcur]
      have hfin : chainFrom lines (p + 1) [mkBlock (acc.length + 1)
          (lines.length - cur.length + 1) lines.length (joinLines cur)] =
          some (lines.length + 1) := by
        have hstep : chainFrom lines (p + 1) [mkBlock (acc.length + 1)
            (lines.length - cur.length + 1) lines.length (joinLines cur)] =
            if (mkBlock (acc.length + 1) (lines.length - cur.length + 1)
                  lines.length (joinLines cur)).start_line = p + 1 ∧
                p + 1 ≤ (mkBlock (acc.length + 1) (lines.length - cur.length + 1)
                  lines.length (joinLines cur)).end_line ∧
                (mkBlock (acc.length + 1) (lines.length - cur.length + 1)
                  lines.length (joinLines cur)).end_line ≤ lines.length ∧
                (mkBlock (acc.length + 1) (lines.length - cur.length + 1)
                  lines.length (joinLines cur)).text = sliceText lines (p + 1)
                  (mkBlock (acc.length + 1) (lines.length - cur.length + 1)
                    lines.length (joinLines cur)).end_line then
              chainFrom lines ((mkBlock (acc.length + 1) (lines.length - cur.length + 1)
                lines.length (joinLines cur)).end_line + 1) []
            else none := rfl
        rw [hstep, if_pos hcond]
        rfl
      exact hfin
  | cons line rest' ih =>
    intro p acc cur curTok i hacc hcur hrest hle hi
    have hlt : p + cur.length < lines.length := by
      by_contra hcon
      have : lines.drop (p + cur.length) = [] := by
        rw [List.drop_eq_nil_iff_le]
        omega
      rw [this] at hrest
      exact absurd hrest (by simp)
    have hdropsucc : lines.drop (p + cur.length + 1) = rest' := by
      have : lines.drop (p + cur.length + 1) =
          (lines.drop (p + cur.length)).drop 1 := by
        rw [List.drop_drop]
      rw [this, ← hrest]
      simp
    have hdropcur : lines.drop (p + cur.length) = line :: rest' := hrest.symm
    have hdropP : lines.drop p = cur ++ (line :: rest') := by
      conv_lhs => rw [← List.take_append_drop cur.length (lines.drop p)]
      rw [← hcur, List.drop_drop, hdropcur]
    show chainFrom lines 1 (fallbackGo est maxT lines.length (line :: rest') i acc cur curTok) =
      some (lines.length + 1)
    by_cases hbr : curTok + est line > maxT ∧ cur ≠ []
    · have hunf : fallbackGo est maxT lines.length (line :: rest') i acc cur curTok =
          fallbackGo est maxT lines.length rest' (i + 1)
            (acc ++ [mkBlock (acc.length + 1) (i - cur.length) (i - 1) (joinLines cur)])
            [line] (est line) := by
        simp only [fallbackGo, if_pos hbr]
      rw [hunf]
      have hclen : 1 ≤ cur.length := by
        rcases hbr with ⟨_, hne⟩
        cases cur with
        | nil => exact absurd rfl hne
        | cons a t => simp
      have hstart : i - cur.length = p + 1 := by omega
      have hend : i - 1 = p + cur.length := by omega
      refine ih (p + cur.length) _ [line] (est line) (i + 1) ?_ ?_ ?_ ?_ ?_
      · rw [chainFrom_append lines acc _ _ _ hacc]
        have hcond : (mkBlock (acc.length + 1) (i - cur.length) (i - 1)
              (joinLines cur)).start_line = p + 1 ∧
            p + 1 ≤ (mkBlock (acc.length + 1) (i - cur.length) (i - 1)
              (joinLines cur)).end_line ∧
            (mkBlock (acc.length + 1) (i - cur.length) (i - 1)
              (joinLines cur)).end_line ≤ lines.length ∧
            (mkBlock (acc.length + 1) (i - cur.length) (i - 1)
              (joinLines cur)).text = sliceText lines (p + 1)
              (mkBlock (acc.length + 1) (i - cur.length) (i - 1)
                (joinLines cur)).end_line := by
          refine ⟨hstart, ?_, ?_, ?_⟩
          · show p + 1 ≤ i - 1
            omega
          · show i - 1 ≤ lines.length
            omega
          · show joinLines cur = sliceText lines (p + 1) (i - 1)
            unfold sliceText
            have h1 : p + 1 - 1 = p := by omega
            have h2 : i - 1 - (p + 1) + 1 = cur.length := by omega
            rw [h1, h2, ← hcur]
        have hstep : chainFrom lines (p + 1) [mkBlock (acc.length + 1)
            (i - cur.length) (i - 1) (joinLines cur)] =
            if (mkBlock (acc.length + 1) (i - cur.length) (i - 1)
                  (joinLines cur)).start_line = p + 1 ∧
                p + 1 ≤ (mkBlock (acc.length + 1) (i - cur.length) (i - 1)
                  (joinLines cur)).end_line ∧
                (mkBlock (acc.length + 1) (i - cur.length) (i - 1)
                  (joinLines cur)).end_line ≤ lines.length ∧
                (mkBlock (acc.length + 1) (i - cur.length) (i - 1)
                  (joinLines cur)).text = sliceText lines (p + 1)
                  (mkBlock (acc.length + 1) (i - cur.length) (i - 1)
                    (joinLines cur)).end_line then
              chainFrom lines ((mkBlock (acc.length + 1) (i - cur.length) (i - 1)
                (joinLines cur)).end_line + 1) []
            else none := rfl
        rw [hstep, if_pos hcond]
        show some ((i - 1) + 1) = some (p + cur.length + 1)
        rw [hend]
      · show [line] = (lines.drop (p + cur.length)).take 1
        rw [hdropcur]
        rfl
      · show rest' = lines.drop (p + cur.length + 1)
        rw [hdropsucc]
      · show p + cur.length + 1 ≤ lines.length
        omega
      · show i + 1 = p + cur.length + 1 + 1
        omega
    · have hunf : fallbackGo est maxT lines.length (line :: rest') i acc cur curTok =
          fallbackGo est maxT lines.length rest' (i + 1) acc (cur ++ [line])
            (curTok + est line) := by
        simp only [fallbackGo, if_neg hbr]
      rw [hunf]
      refine ih p acc (cur ++ [line]) (curTok + est line) (i + 1) hacc ?_ ?_ ?_ ?_
      · show cur ++ [line] = (lines.drop p).take (cur ++ [line]).length
        rw [hdropP, List.length_append, List.take_append_eq_append_take]
        have h1 : cur.length + [line].length - cur.length = 1 := by simp
        rw [h1, List.take_of_length_le (by simp)]
        rfl
      · show rest' = lines.drop (p + (cur ++ [line]).length)
        rw [List.length_append]
        have : p + (cur.length + [line].length) = p + cur.length + 1 := by
          simp only [List.length_singleton]
          omega
        rw [this, hdropsucc]
      · show p + (cur ++ [line]).length ≤ lines.length
        rw [List.length_append]
        simp only [List.length_singleton]
        omega
      · show i + 1 = p + (cur ++ [line]).length + 1
        rw [List.length_append]
        simp only [List.length_singleton]
        omega

theorem fallback_chunking_covers (est : String → Nat) (maxT : Nat) (content : String) :
    coversAllLines (pySplitLines content) (fallback_chunking est maxT content) := by
  unfold coversAllLines fallback_chunking
  exact fallbackGo_chain est maxT (pySplitLines content) (pySplitLines content) 0 [] [] 0 1
    rfl rfl rfl (by simp) rfl

theorem merge_step_eq (est : String → Nat) (minT maxT : Nat) (a b : Chunk)
    (rest : List Chunk) :
    merge_small_chunks est minT maxT (a :: b :: rest) =
      if est a.text < minT ∧ est a.text + est b.text ≤ maxT then
        mergedOf a b :: merge_small_chunks est minT maxT rest
      else
        a :: merge_small_chunks est minT maxT (b :: rest) := rfl

theorem chainFrom_merge (est : String → Nat) (minT maxT : Nat) (lines : List String)
    (cs : List Chunk) :
    ∀ (s t : Nat), 1 ≤ s → chainFrom lines s cs = some t →
      chainFrom lines s (merge_small_chunks est minT maxT cs) = some t := by
  induction cs using merge_small_chunks.induct est minT maxT with
  | case1 => intro s t _ h; exact h
  | case2 c => intro s t _ h; exact h
  | case3 a b rest hcond ih =>
    intro s t hs h
    rw [merge_step_eq, if_pos hcond]
    have hstepa : ∀ (zs : List Chunk), chainFrom lines s (a :: zs) =
        if a.start_line = s ∧ s ≤ a.end_line ∧ a.end_line ≤ lines.length ∧
            a.text = sliceText lines s a.end_line then
          chainFrom lines (a.end_line + 1) zs
        else none := fun _ => rfl
    rw [hstepa] at h
    split at h
    case isFalse => exact absurd h (by simp)
    case isTrue hca =>
      have hstepb : ∀ (zs : List Chunk), chainFrom lines (a.end_line + 1) (b :: zs) =
          if b.start_line = a.end_line + 1 ∧ a.end_line + 1 ≤ b.end_line ∧
              b.end_line ≤ lines.length ∧
              b.text = sliceText lines (a.end_line + 1) b.end_line then
            chainFrom lines (b.end_line + 1) zs
          else none := fun _ => rfl
      rw [hstepb] at h
      split at h
      case isFalse => exact absurd h (by simp)
      case isTrue hcb =>
        have hstepm : chainFrom lines s (mergedOf a b :: merge_small_chunks est minT maxT rest) =
            if (mergedOf a b).start_line = s ∧ s ≤ (mergedOf a b).end_line ∧
                (mergedOf a b).end_line ≤ lines.length ∧
                (mergedOf a b).text = sliceText lines s (mergedOf a b).end_line then
              chainFrom lines ((mergedOf a b).end_line + 1)
                (merge_small_chunks est minT maxT rest)
            else none := rfl
        rw [hstepm]
        obtain ⟨ha1, ha2, ha3, ha4⟩ := hca
        obtain ⟨hb1, hb2, hb3, hb4⟩ := hcb
        have hmcond : (mergedOf a b).start_line = s ∧ s ≤ (mergedOf a b).end_line ∧
            (mergedOf a b).end_line ≤ lines.length ∧
            (mergedOf a b).text = sliceText lines s (mergedOf a b).end_line := by
          refine ⟨ha1, ?_, hb3, ?_⟩
          · show s ≤ b.end_line
            omega
          · show a.text ++ "\n" ++ b.text = sliceText lines s b.end_line
            rw [ha4, hb4]
            exact sliceText_glue lines s a.end_line b.end_line hs ha2 (by omega) hb3
        rw [if_pos hmcond]
        exact ih (b.end_line + 1) t (by omega) h
  | case4 a b rest hcond ih =>
    intro s t hs h
    rw [merge_step_eq, if_neg hcond]
    have hstepa : ∀ (zs : List Chunk), chainFrom lines s (a :: zs) =
        if a.start_line = s ∧ s ≤ a.end_line ∧ a.end_line ≤ lines.length ∧
            a.text = sliceText lines s a.end_line then
          chainFrom lines (a.end_line + 1) zs
        else none := fun _ => rfl
    rw [hstepa] at h
    rw [hstepa]
    split at h
    case isFalse => exact absurd h (by simp)
    case isTrue hca =>
      rw [if_pos hca]
      exact ih _ _ (by omega) h

theorem splitNlChars_ne_nil (l : List Char) : splitNlChars l ≠ [] := by
  induction l with
  | nil => simp [splitNlChars]
  | cons c cs ih =>
    unfold splitNlChars
    split
    · simp
    · cases h : splitNlChars cs with
      | nil => simp
      | cons a t => simp

theorem pySplitLines_ne_nil (s : String) : pySplitLines s ≠ [] := by
  unfold pySplitLines
  simp [splitNlChars_ne_nil]

theorem fallbackGo_ne_nil (est : String → Nat) (maxT nLines : Nat) :
    ∀ (rest : List String) (i : Nat) (acc : List Chunk) (cur : List String)
      (curTok : Nat), acc ≠ [] ∨ cur ≠ [] ∨ rest ≠ [] →
      fallbackGo est maxT nLines rest i acc cur curTok ≠ [] := by
  intro rest
  induction rest with
  | nil =>
    intro i acc cur curTok h
    unfold fallbackGo
    split
    case isTrue hc =>
      subst hc
      rcases h with h | h | h
      · exact h
      · exact absurd rfl h
      · exact absurd rfl h
    case isFalse hc => simp
  | cons line rest' ih =>
    intro i acc cur curTok _
    by_cases hbr : curTok + est line > maxT ∧ cur ≠ []
    · have hunf : fallbackGo est maxT nLines (line :: rest') i acc cur curTok =
          fallbackGo est maxT nLines rest' (i + 1)
            (acc ++ [mkBlock (acc.length + 1) (i - cur.length) (i - 1) (joinLines cur)])
            [line] (est line) := by
        simp only [fallbackGo, if_pos hbr]
      rw [hunf]
      exact ih _ _ _ _ (Or.inl (by simp))
    · have hunf : fallbackGo est maxT nLines (line :: rest') i acc cur curTok =
          fallbackGo est maxT nLines rest' (i + 1) acc (cur ++ [line])
            (curTok + est line) := by
        simp only [fallbackGo, if_neg hbr]
      rw [hunf]
      exact ih _ _ _ _ (Or.inr (Or.inl (by simp)))

theorem fallback_chunking_ne_nil (est : String → Nat) (maxT : Nat) (content : String) :
    fallback_chunking est maxT content ≠ [] := by
  unfold fallback_chunking
  exact fallbackGo_ne_nil est maxT _ _ 1 [] [] 0 (Or.inr (Or.inr (pySplitLines_ne_nil content)))

theorem merge_ne_nil (est : String → Nat) (minT maxT : Nat) (cs : List Chunk)
    (h : cs ≠ []) : merge_small_chunks est minT maxT cs ≠ [] := by
  match cs with
  | [] => exact absurd rfl h
  | [c] => simp [merge_small_chunks]
  | a :: b :: rest =>
    rw [merge_step_eq]
    split <;> simp

theorem addOverlapGo_length (k nL : Nat) (lines : List String) :
    ∀ (cs : List Chunk) (prevEnd? : Option Nat),
      (addOverlapGo k nL lines prevEnd? cs).length = cs.length := by
  intro cs
  induction cs with
  | nil => intro pe; rfl
  | cons c rest ih =>
    intro pe
    cases rest with
    | nil => rfl
    | cons d rest' =>
      show (addOverlapGo k nL lines pe (c :: d :: rest')).length = (c :: d :: rest').length
      have hstep : addOverlapGo k nL lines pe (c :: d :: rest') =
          ({ applyPrevOverlap k lines pe c with
              text := (applyPrevOverlap k lines pe c).text ++ "\n" ++
                joinLines (sliceIdx lines (d.start_line - 1)
                  (min nL (d.start_line - 1 + k))),
              end_line := min nL (d.start_line - 1 + k) } : Chunk) ::
            addOverlapGo k nL lines (some (min nL (d.start_line - 1 + k))) (d :: rest') := rfl
      rw [hstep]
      simp only [List.length_cons, ih]

theorem add_overlap_length (overlapT : Nat) (chunks : List Chunk) (content : String) :
    (add_overlap overlapT chunks content).length = chunks.length := by
  unfold add_overlap
  split
  · rfl
  · exact addOverlapGo_length _ _ _ chunks none

theorem joinLines_glue (x y : String) (L : List String) :
    joinLines ((x ++ "\n" ++ y) :: L) = x ++ "\n" ++ joinLines (y :: L) := by
  cases L with
  | nil => rfl
  | cons z t =>
    rw [joinLines_cons _ _ (by simp), joinLines_cons y _ (by simp)]
    simp [String.append_assoc]

theorem joinTexts_merge (est : String → Nat) (minT maxT : Nat) (cs : List Chunk) :
    joinTexts (merge_small_chunks est minT maxT cs) = joinTexts cs := by
  induction cs using merge_small_chunks.induct est minT maxT with
  | case1 => rfl
  | case2 c => rfl
  | case3 a b rest hcond ih =>
    rw [merge_step_eq, if_pos hcond]
    unfold joinTexts
    show joinLines ((a.text ++ "\n" ++ b.text) ::
        (merge_small_chunks est minT maxT rest).map Chunk.text) =
      joinLines (a.text :: b.text :: rest.map Chunk.text)
    rw [joinLines_glue]
    cases hr : rest with
    | nil => rfl
    | cons r rs =>
      subst hr
      have hmn : merge_small_chunks est minT maxT (r :: rs) ≠ [] :=
        merge_ne_nil est minT maxT _ (by simp)
      have hmap : (merge_small_chunks est minT maxT (r :: rs)).map Chunk.text ≠ [] := by
        simpa using hmn
      have ih2 : joinLines ((merge_small_chunks est minT maxT (r :: rs)).map Chunk.text) =
          joinLines ((r :: rs).map Chunk.text) := ih
      rw [joinLines_cons b.text _ hmap, ih2,
        ← joinLines_cons b.text ((r :: rs).map Chunk.text) (by simp),
        ← joinLines_cons a.text _ (by simp)]
  | case4 a b rest hcond ih =>
    rw [merge_step_eq, if_neg hcond]
    unfold joinTexts
    show joinLines (a.text :: (merge_small_chunks est minT maxT (b :: rest)).map Chunk.text) =
      joinLines (a.text :: b.text :: rest.map Chunk.text)
    have hmn : merge_small_chunks est minT maxT (b :: rest) ≠ [] :=
      merge_ne_nil est minT maxT _ (by simp)
    have hmap : (merge_small_chunks est minT maxT (b :: rest)).map Chunk.text ≠ [] := by
      simpa using hmn
    rw [joinLines_cons a.text _ hmap, joinLines_cons a.text _ (by simp)]
    have := ih
    unfold joinTexts at this
    rw [this]
    rfl

theorem getLast?_cons_ne (a : Chunk) (l : List Chunk) (h : l ≠ []) :
    (a :: l).getLast? = l.getLast? := by
  cases l with
  | nil => exact absurd rfl h
  | cons b t => exact List.getLast?_cons_cons

theorem merge_head_start (est : String → Nat) (minT maxT : Nat) (cs : List Chunk) :
    (merge_small_chunks est minT maxT cs).head?.map Chunk.start_line =
      cs.head?.map Chunk.start_line := by
  match cs with
  | [] => rfl
  | [c] => rfl
  | a :: b :: rest =>
    rw [merge_step_eq]
    split
    · rfl
    · rfl

theorem merge_getLast_end (est : String → Nat) (minT maxT : Nat) (cs : List Chunk) :
    (merge_small_chunks est minT maxT cs).getLast?.map Chunk.end_line =
      cs.getLast?.map Chunk.end_line := by
  induction cs using merge_small_chunks.induct est minT maxT with
  | case1 => rfl
  | case2 c => rfl
  | case3 a b rest hcond ih =>
    rw [merge_step_eq, if_pos hcond]
    cases hr : rest with
    | nil => rfl
    | cons r rs =>
      subst hr
      have hmn : merge_small_chunks est minT maxT (r :: rs) ≠ [] :=
        merge_ne_nil est minT maxT _ (by simp)
      rw [getLast?_cons_ne _ _ hmn, ih, List.getLast?_cons_cons,
        List.getLast?_cons_cons]
  | case4 a b rest hcond ih =>
    rw [merge_step_eq, if_neg hcond]
    have hmn : merge_small_chunks est minT maxT (b :: rest) ≠ [] :=
      merge_ne_nil est minT maxT _ (by simp)
    rw [getLast?_cons_ne _ _ hmn, ih, List.getLast?_cons_cons]

theorem estimate_tokens_mono (x y : String) :
    estimate_tokens x ≤ estimate_tokens (x ++ "\n" ++ y) := by
  unfold estimate_tokens
  have h : (x ++ "\n" ++ y).length = x.length + 1 + y.length := by
    rw [String.length_append, String.length_append]
    rfl
  rw [h]
  apply Nat.div_le_div_right
  omega

theorem merge_head_text (est : String → Nat) (minT maxT : Nat) (b : Chunk)
    (rest : List Chunk) :
    ∃ h t, merge_small_chunks est minT maxT (b :: rest) = h :: t ∧
      (h.text = b.text ∨ ∃ y, h.text = b.text ++ "\n" ++ y) := by
  match rest with
  | [] => exact ⟨b, [], rfl, Or.inl rfl⟩
  | b2 :: rest2 =>
    rw [merge_step_eq]
    split
    · exact ⟨mergedOf b b2, _, rfl, Or.inr ⟨b2.text, rfl⟩⟩
    · exact ⟨b, _, rfl, Or.inl rfl⟩

theorem belowMinOkAmended_step (est : String → Nat) (minT maxT : Nat)
    (c d : Chunk) (rest : List Chunk) :
    belowMinOkAmended est minT maxT (c :: d :: rest) =
      ((decide (minT ≤ est c.text) || decide (maxT < est c.text + est d.text) ||
          decide (c.type = "merged")) &&
        belowMinOkAmended est minT maxT (d :: rest)) := rfl

theorem chunk_file_ne_nil (est : String → Nat) (minT maxT overlapT : Nat)
    (parsedNodes : List Chunk) (content : String) :
    chunk_file est minT maxT overlapT parsedNodes content ≠ [] := by
  unfold chunk_file
  have h0 : (if parsedNodes.isEmpty then fallback_chunking est maxT content
      else parsedNodes) ≠ [] := by
    split
    · exact fallback_chunking_ne_nil est maxT content
    case isFalse hne => simpa [List.isEmpty_iff] using hne
  have h1 : merge_small_chunks est minT maxT
      (if parsedNodes.isEmpty then fallback_chunking est maxT content
        else parsedNodes) ≠ [] := merge_ne_nil est minT maxT _ h0
  apply List.ne_nil_of_length_pos
  rw [add_overlap_length]
  exact List.length_pos.mpr h1

theorem chunk_file_empty_content (est : String → Nat) (minT maxT overlapT : Nat) :
    chunk_file est minT maxT overlapT [] "" = [mkBlock 1 1 1 ""] := by
  have hfb : fallback_chunking est maxT "" = [mkBlock 1 1 1 ""] := by
    unfold fallback_chunking
    have h1 : pySplitLines "" = [""] := rfl
    rw [h1]
    show fallbackGo est maxT 1 [""] 1 [] [] 0 = [mkBlock 1 1 1 ""]
    have h2 : fallbackGo est maxT 1 [""] 1 [] [] 0 =
        fallbackGo est maxT 1 [] 2 [] ([] ++ [""]) (0 + est "") := by
      simp only [fallbackGo]
      rw [if_neg (by simp)]
    rw [h2]
    have h3 : fallbackGo est maxT 1 [] 2 [] ([] ++ [""]) (0 + est "") =
        [mkBlock 1 1 1 ""] := by
      simp only [fallbackGo]
      rw [if_neg (by simp)]
      rfl
    rw [h3]
  unfold chunk_file
  show add_overlap overlapT (merge_small_chunks est minT maxT
    (if ([] : List Chunk).isEmpty then fallback_chunking est maxT "" else [])) "" =
    [mkBlock 1 1 1 ""]
  rw [show (if ([] : List Chunk).isEmpty then fallback_chunking est maxT "" else []) =
      fallback_chunking est maxT "" from if_pos rfl]
  rw [hfb]
  rw [show merge_small_chunks est minT maxT [mkBlock 1 1 1 ""] =
      [mkBlock 1 1 1 ""] from rfl]
  unfold add_overlap
  rw [if_pos (by simp)]

theorem string_length_take (s : String) (n : Nat) : (s.take n).length = min n s.length := by
  rw [String.take_eq]
  cases s with
  | mk d => simp [String.length]

/-- C1: for every file content run through the fallback path (fallback
segmentation followed by small-chunk merging, before overlap injection) and
any token estimator and size configuration, the resulting chunk list covers
the original line sequence with no gaps and no missing line: chunks appear
in order, the first chunk starts at line 1, each next chunk starts at the
previous chunk's `end_line + 1`, the last chunk ends at the number of lines,
and each chunk's text is exactly the newline-join of its line range. -/
theorem fallback_then_merge_covers_all_lines (est : String → Nat) (minT maxT : Nat)
    (content : String) :
    coversAllLines (pySplitLines content)
      (merge_small_chunks est minT maxT (fallback_chunking est maxT content)) := by
  unfold coversAllLines
  exact chainFrom_merge est minT maxT _ _ 1 _ (by omega)
    (fallback_chunking_covers est maxT content)

/-- C2 counterexample: the claim as stated is false.  With the fallback
estimator, `min_tokens = 50`, `max_tokens = 25000` and three 20-character
chunks (5 estimated tokens each), the merge pass folds the first two chunks
into a 10-token chunk which is below `min_tokens`, is not the last chunk,
and could still be merged with its successor without exceeding
`max_tokens` — yet it is emitted as is. -/
theorem merge_below_min_claim_cex :
    belowMinOk estimate_tokens 50 25000
      (merge_small_chunks estimate_tokens 50 25000
        [⟨"block", "block_1", 1, 1, String.mk (List.replicate 20 'a'), "fallback", true⟩,
         ⟨"block", "block_2", 2, 2, String.mk (List.replicate 20 'b'), "fallback", true⟩,
         ⟨"block", "block_3", 3, 3, String.mk (List.replicate 20 'c'), "fallback", true⟩]) =
      false := by decide

/-- C2 amended: for every chunk list and configuration, and every token
estimator monotone under concatenation, `_merge_small_chunks` never produces
an output chunk whose estimate is below `min_tokens` except when that chunk
is the last chunk of the list, or merging it with its successor would
exceed `max_tokens`, or the chunk is itself the output of a merge (kind
`"merged"`) — the single left-to-right pass never re-evaluates a chunk it
just produced. -/
theorem merge_below_min_amended (est : String → Nat) (minT maxT : Nat)
    (cs : List Chunk) (hmono : ∀ x y : String, est x ≤ est (x ++ "\n" ++ y)) :
    belowMinOkAmended est minT maxT (merge_small_chunks est minT maxT cs) = true := by
  induction cs using merge_small_chunks.induct est minT maxT with
  | case1 => rfl
  | case2 c => rfl
  | case3 a b rest hcond ih =>
    rw [merge_step_eq, if_pos hcond]
    cases hm : merge_small_chunks est minT maxT rest with
    | nil => rfl
    | cons h t =>
      rw [belowMinOkAmended_step]
      have h1 : decide ((mergedOf a b).type = "merged") = true := by
        simp [mergedOf]
      rw [h1]
      rw [← hm, ih]
      simp
  | case4 a b rest hcond ih =>
    rw [merge_step_eq, if_neg hcond]
    obtain ⟨h, t, hht, htext⟩ := merge_head_text est minT maxT b rest
    rw [hht]
    rw [belowMinOkAmended_step]
    have hfac : (decide (minT ≤ est a.text) || decide (maxT < est a.text + est h.text) ||
        decide (a.type = "merged")) = true := by
      rcases Decidable.not_and_iff_or_not.mp hcond with hc | hc
      · have : minT ≤ est a.text := by omega
        simp [this]
      · have hab : maxT < est a.text + est b.text := by omega
        have hbh : est b.text ≤ est h.text := by
          rcases htext with he | ⟨y, he⟩
          · rw [he]
          · rw [he]
            exact hmono b.text y
        have : maxT < est a.text + est h.text := by omega
        simp [this]
    rw [hfac]
    rw [← hht, ih]
    simp

/-- C2 amended witness: the amended statement applied at the concrete
three-chunk input of the counterexample. -/
theorem merge_below_min_amended_witness :
    belowMinOkAmended estimate_tokens 50 25000
      (merge_small_chunks estimate_tokens 50 25000
        [⟨"block", "block_1", 1, 1, String.mk (List.replicate 20 'a'), "fallback", true⟩,
         ⟨"block", "block_2", 2, 2, String.mk (List.replicate 20 'b'), "fallback", true⟩,
         ⟨"block", "block_3", 3, 3, String.mk (List.replicate 20 'c'), "fallback", true⟩]) =
      true :=
  merge_below_min_amended estimate_tokens 50 25000 _ estimate_tokens_mono

/-- C3: `create_code_fingerprint` equals the hex digest embedded in
`create_chunk_id` after stripping the `"sha1:"` prefix, and both equal the
digest of the string `path ++ ":" ++ start ++ ":" ++ end ++ ":" ++ text`;
the two are computed by separate code paths over the same digest function
(`hashlib.sha1(...).hexdigest()`). -/
theorem create_chunk_id_fingerprint_agree (sha1_hexdigest : String → String)
    (p : String) (s e : Nat) (t : String) :
    create_chunk_id sha1_hexdigest p s e t =
      "sha1:" ++ create_code_fingerprint sha1_hexdigest p s e t ∧
    create_code_fingerprint sha1_hexdigest p s e t =
      sha1_hexdigest (p ++ ":" ++ toString s ++ ":" ++ toString e ++ ":" ++ t) :=
  ⟨rfl, rfl⟩

/-- C4 counterexample: the claim as stated is false — `_fallback_chunking`
can emit a chunk whose text is empty: for empty content it emits exactly
one chunk, whose text is the empty string. -/
theorem fallback_empty_text_cex :
    ¬ (∀ c ∈ fallback_chunking estimate_tokens 25000 "", c.text ≠ "") ∧
    (fallback_chunking estimate_tokens 25000 "").map Chunk.text = [""] := by decide

/-- C4 amended: `_fallback_chunking` never emits a chunk from an empty
accumulator — every emitted chunk covers at least one line
(`start_line ≤ end_line`) — and always closes the final non-empty
accumulator as a trailing chunk even when under the minimum size, so no
line of the input is ever dropped: the emitted chunks cover every line of
the content exactly once and in order.  A chunk's text is empty only when
the lines it covers are themselves empty (e.g. the single chunk produced
for empty content). -/
theorem fallback_no_line_dropped (est : String → Nat) (maxT : Nat) (content : String) :
    coversAllLines (pySplitLines content) (fallback_chunking est maxT content) ∧
    ∀ c ∈ fallback_chunking est maxT content, c.start_line ≤ c.end_line := by
  refine ⟨fallback_chunking_covers est maxT content, ?_⟩
  have h := fallback_chunking_covers est maxT content
  unfold coversAllLines at h
  exact chainFrom_bounds (pySplitLines content) _ 1 _ h

/-- C5 counterexample: the claim as stated is false — a file with empty
content is not an example of "no spans producible even after fallback": the
pipeline produces one chunk for it, increments `parsed_files` (not
`failed_files`), and emits that chunk. -/
theorem process_file_empty_content_cex :
    (process_file estimate_tokens 50 25000 1000 ⟨0, 0, 0⟩ [] "").1 = ⟨1, 1, 0⟩ ∧
    ((process_file estimate_tokens 50 25000 1000 ⟨0, 0, 0⟩ [] "").2).length = 1 := by
  decide

/-- C5 amended: `process_file` marks a file failed with zero chunks (and no
exception) only when `chunk_file` returns an empty list; `chunk_file` never
does, so on the successful-read path every file — including one with empty
content — is counted parsed, its chunk list is emitted, and `failed_files`
is untouched; processing is a pure state update and continues with other
files. -/
theorem process_file_marks_parsed_amended (est : String → Nat)
    (minT maxT overlapT : Nat) (stats : Stats) (parsedNodes : List Chunk)
    (content : String) :
    (process_file est minT maxT overlapT stats parsedNodes content).1.total_files =
      stats.total_files + 1 ∧
    (process_file est minT maxT overlapT stats parsedNodes content).1.parsed_files =
      stats.parsed_files + 1 ∧
    (process_file est minT maxT overlapT stats parsedNodes content).1.failed_files =
      stats.failed_files ∧
    (process_file est minT maxT overlapT stats parsedNodes content).2 =
      chunk_file est minT maxT overlapT parsedNodes content ∧
    (process_file est minT maxT overlapT stats parsedNodes content).2 ≠ [] := by
  have hne : chunk_file est minT maxT overlapT parsedNodes content ≠ [] :=
    chunk_file_ne_nil est minT maxT overlapT parsedNodes content
  have hemp : (chunk_file est minT maxT overlapT parsedNodes content).isEmpty = false := by
    simpa [List.isEmpty_iff] using hne
  have hstep : process_file est minT maxT overlapT stats parsedNodes content =
      ({ total_files := stats.total_files + 1, parsed_files := stats.parsed_files + 1,
          failed_files := stats.failed_files },
        chunk_file est minT maxT overlapT parsedNodes content) := by
    simp only [process_file]
    rw [hemp]
    simp
  rw [hstep]
  exact ⟨rfl, rfl, rfl, rfl, hne⟩

/-- C6 (code bug): `_add_overlap` does not compute the prepended slice from
the previous chunk's pre-overlap `end_line`.  On two contiguous chunks
covering lines 1–3 and 4–6 of a six-line file with `overlap_tokens = 4`
(one overlap line), the second chunk is prepended with `"l4"` — its own
first line, because `chunks[0]['end_line']` was already mutated to 4 — and
its `start_line` stays 4, whereas the claimed behaviour (prepend the tail
of the previous original chunk) would prepend `"l3"` and move `start_line`
back to 3. -/
theorem add_overlap_reads_mutated_prev_end :
    (add_overlap 4
        [⟨"block", "block_1", 1, 3, "l1\nl2\nl3", "fallback", true⟩,
         ⟨"block", "block_2", 4, 6, "l4\nl5\nl6", "fallback", true⟩]
        "l1\nl2\nl3\nl4\nl5\nl6").map (fun c => (c.start_line, c.end_line, c.text)) =
      [(1, 4, "l1\nl2\nl3\nl4"), (4, 6, "l4\nl4\nl5\nl6")] ∧
    (add_overlap 4
        [⟨"block", "block_1", 1, 3, "l1\nl2\nl3", "fallback", true⟩,
         ⟨"block", "block_2", 4, 6, "l4\nl5\nl6", "fallback", true⟩]
        "l1\nl2\nl3\nl4\nl5\nl6").map (fun c => (c.start_line, c.end_line, c.text)) ≠
      [(1, 4, "l1\nl2\nl3\nl4"), (3, 6, "l3\nl4\nl5\nl6")] := by decide

/-- C7 counterexample: the claim as stated is false — the fallback token
estimate of the 3-character text `"abc"` is `3 // 4 = 0`, not
`ceil(3 / 4) = 1`. -/
theorem estimate_tokens_not_ceil_cex :
    estimate_tokens "abc" = 0 ∧ estimate_tokens_ceil_spec "abc" = 1 ∧
    estimate_tokens "abc" ≠ estimate_tokens_ceil_spec "abc" := by decide

/-- C7 amended: when the exact tokenizer is unavailable,
`estimate_tokens(text)` returns `floor(length(text) / 4)` (Python
`len(text) // 4`): a non-negative integer with
`4 * result ≤ length < 4 * result + 4`, and being a pure function it
returns the same value on every call with the same input. -/
theorem estimate_tokens_floor_amended (text : String) :
    4 * estimate_tokens text ≤ text.length ∧
    text.length < 4 * estimate_tokens text + 4 ∧
    estimate_tokens text = text.length / 4 := by
  unfold estimate_tokens
  refine ⟨?_, ?_, rfl⟩ <;> omega

set_option maxRecDepth 20000 in
/-- C8 counterexample: the claim as stated is false — the summary is not
`label ++ first line truncated to 100 characters`: for function kinds an
ellipsis `"..."` is always appended (`"Function: hi..."`, not
`"Function: hi"`), and for import kinds the line is not truncated at all (a
120-character line yields a 128-character summary, beyond any
label-plus-100 bound). -/
theorem generate_summary_claim_cex :
    generate_summary "hi" "function" = "Function: hi..." ∧
    generate_summary "hi" "function" ≠ "Function: hi" ∧
    (generate_summary (String.mk (List.replicate 120 'a')) "import").length = 128 := by
  decide

/-- C8 amended: `generate_summary(text, kind)` takes the first line of the
whitespace-stripped text, strips it, and returns it prefixed by a label
derived from the kind — `"Function:"` for function/method, `"Class:"` for
class, `"Import:"` for import kinds, and the title-cased kind otherwise;
for all non-import kinds the line is truncated to at most 100 characters
and `"..."` is appended (so e.g. a function summary never exceeds 113
characters), while for import kinds the line is appended in full with no
truncation and no ellipsis. -/
theorem generate_summary_format_amended (text kind : String) :
    ((kind = "function" ∨ kind = "method") →
      generate_summary text kind =
        "Function: " ++ (pyStrip ((pySplitLines (pyStrip text)).headD "")).take 100 ++ "...") ∧
    (kind = "class" →
      generate_summary text kind =
        "Class: " ++ (pyStrip ((pySplitLines (pyStrip text)).headD "")).take 100 ++ "...") ∧
    ((kind = "import" ∨ kind = "import_statement") →
      generate_summary text kind =
        "Import: " ++ pyStrip ((pySplitLines (pyStrip text)).headD "")) ∧
    ((kind ≠ "function" ∧ kind ≠ "method" ∧ kind ≠ "class" ∧ kind ≠ "import" ∧
        kind ≠ "import_statement") →
      generate_summary text kind =
        pyTitle kind ++ ": " ++ (pyStrip ((pySplitLines (pyStrip text)).headD "")).take 100 ++ "...") ∧
    (generate_summary text "function").length ≤ 113 := by
  refine ⟨?_, ?_, ?_, ?_, ?_⟩
  · intro h
    unfold generate_summary
    rw [if_pos h]
  · intro h
    unfold generate_summary
    rw [if_neg (by rw [h]; decide), if_pos h]
  · intro h
    unfold generate_summary
    rw [if_neg ?hne1, if_neg ?hne2, if_pos h]
    case hne1 =>
      rcases h with h | h <;> rw [h] <;> decide
    case hne2 =>
      rcases h with h | h <;> rw [h] <;> decide
  · intro ⟨h1, h2, h3, h4, h5⟩
    unfold generate_summary
    rw [if_neg (by tauto), if_neg h3, if_neg (by tauto)]
  · have hfun : generate_summary text "function" =
        "Function: " ++ (pyStrip ((pySplitLines (pyStrip text)).headD "")).take 100 ++ "..." := by
      unfold generate_summary
      rw [if_pos (Or.inl rfl)]
    rw [hfun, String.length_append, String.length_append, string_length_take]
    have h1 : ("Function: " : String).length = 10 := by decide
    have h2 : ("..." : String).length = 3 := by decide
    rw [h1, h2]
    omega

set_option maxRecDepth 20000 in
/-- C8 amended witness: the amended statement applied at concrete input
`("hi", "class")`. -/
theorem generate_summary_format_amended_witness :
    generate_summary "hi" "class" = "Class: hi..." :=
  ((generate_summary_format_amended "hi" "class").2.1 rfl).trans (by decide)

/-- C9: for every estimator, configuration, parsed-node list and content —
in particular for empty content — `chunk_file` returns a non-empty chunk
list: the fallback segmenter always emits at least one chunk (for empty
content a single chunk spanning line 1 to 1 with empty text), and neither
merging nor overlap injection can shrink a non-empty list to empty, so the
pipeline's zero-chunk failure branch is unreachable from chunking itself. -/
theorem chunk_file_always_nonempty (est : String → Nat) (minT maxT overlapT : Nat)
    (parsedNodes : List Chunk) (content : String) :
    chunk_file est minT maxT overlapT parsedNodes content ≠ [] ∧
    (chunk_file est minT maxT overlapT [] "").map
      (fun c => (c.start_line, c.end_line, c.text)) = [(1, 1, "")] := by
  refine ⟨chunk_file_ne_nil est minT maxT overlapT parsedNodes content, ?_⟩
  rw [chunk_file_empty_content]
  rfl

/-- C10: `_merge_small_chunks` preserves total text content and order — the
newline-join of the output texts equals the newline-join of the input
texts — and preserves the endpoints: the first output chunk's `start_line`
and the last output chunk's `end_line` equal those of the input list. -/
theorem merge_preserves_content_and_endpoints (est : String → Nat)
    (minT maxT : Nat) (cs : List Chunk) :
    joinTexts (merge_small_chunks est minT maxT cs) = joinTexts cs ∧
    (merge_small_chunks est minT maxT cs).head?.map Chunk.start_line =
      cs.head?.map Chunk.start_line ∧
    (merge_small_chunks est minT maxT cs).getLast?.map Chunk.end_line =
      cs.getLast?.map Chunk.end_line :=
  ⟨joinTexts_merge est minT maxT cs, merge_head_start est minT maxT cs,
    merge_getLast_end est minT maxT cs⟩

end RepoIndexer
